import Mathlib

set_option maxRecDepth 16000

/-!
Verification of the yamc-apache access-log provider
(`yamc_apache/providers/access_log.py`) against its specification.

The source is Python.  The shallow embedding below models:
  * bytes of the log file as `List Char` (the code decodes chunks as UTF-8;
    all inputs considered here are ASCII, so byte offsets and character
    offsets coincide, exactly as the code assumes);
  * the external line parser (`apache_log_parser`, a black box per the spec)
    as a function `parse : List Char → Option α` together with a timestamp
    projection `ts : α → ℤ` extracting `parts["time_received_datetimeobj"]`;
  * Python's `str.split("\n")` as `splitOnNl`;
  * the float division `num_errors / num_lines` of the error-rate check as
    exact rational division (the concrete ratios appearing in the claims,
    such as 79/21 against 1/5, are far from any float-rounding boundary);
  * the two loops of `find_entries` as fuel-indexed recursions; the fuel
    bounds are generous and their sufficiency for the binary search is
    proved (claim C10).
-/

/-- Model of Python `s.split("\n")`: splits a character list at every
newline, keeping empty pieces, and returns `[[]]` on the empty string. -/
def splitOnNl : List Char → List (List Char)
  | [] => [[]]
  | c :: rest =>
    let ls := splitOnNl rest
    if c = '\n' then [] :: ls
    else (c :: ls.headD []) :: ls.tail

lemma splitOnNl_ne_nil (s : List Char) : splitOnNl s ≠ [] := by
  cases s with
  | nil => simp [splitOnNl]
  | cons c rest =>
    simp only [splitOnNl]
    split <;> simp

lemma splitOnNl_length (s : List Char) :
    (splitOnNl s).length = s.count '\n' + 1 := by
  induction s with
  | nil => simp [splitOnNl]
  | cons c rest ih =>
    by_cases h : c = '\n'
    · simp [splitOnNl, h, List.count_cons, ih]
    · have hne := splitOnNl_ne_nil rest
      have hpos : 0 < (splitOnNl rest).length := List.length_pos.mpr hne
      have hcnt : (c :: rest).count '\n' = rest.count '\n' := by
        simp [List.count_cons, h]
      simp only [splitOnNl, if_neg h, List.length_cons, List.length_tail]
      rw [ih] at hpos ⊢
      rw [hcnt]
      omega

lemma mem_splitOnNl_no_nl (s : List Char) : ∀ l ∈ splitOnNl s, '\n' ∉ l := by
  induction s with
  | nil =>
    intro l hl
    simp [splitOnNl] at hl
    simp [hl]
  | cons c rest ih =>
    intro l hl
    simp only [splitOnNl] at hl
    by_cases hc : c = '\n'
    · rw [if_pos hc] at hl
      rcases List.mem_cons.mp hl with h | h
      · simp [h]
      · exact ih l h
    · rw [if_neg hc] at hl
      rcases List.mem_cons.mp hl with h | h
      · subst h
        intro hmem
        rcases List.mem_cons.mp hmem with h | h
        · exact hc h.symm
        · have hhd : (splitOnNl rest).headD [] ∈ splitOnNl rest := by
            cases hsp : splitOnNl rest with
            | nil => exact absurd hsp (splitOnNl_ne_nil rest)
            | cons a as => simp
          exact ih _ hhd h
      · exact ih l (List.mem_of_mem_tail h)

lemma headD_mem {β : Type} {l : List β} (d : β) (h : l ≠ []) :
    l.headD d ∈ l := by
  cases l with
  | nil => exact absurd rfl h
  | cons a as => simp

lemma getLastD_cons_of_ne_nil {β : Type} {l : List β} (a d : β)
    (h : l ≠ []) : (a :: l).getLastD d = l.getLastD d := by
  cases l with
  | nil => exact absurd rfl h
  | cons b bs => simp [List.getLastD_cons]

lemma getLastD_mem {β : Type} (d : β) :
    ∀ l : List β, l ≠ [] → l.getLastD d ∈ l := by
  intro l
  induction l with
  | nil => intro h; exact absurd rfl h
  | cons a as ih =>
    intro _
    cases as with
    | nil => simp [List.getLastD]
    | cons b bs =>
      rw [getLastD_cons_of_ne_nil a d (by simp)]
      exact List.mem_cons_of_mem a (ih (by simp))

lemma dropLast_cons_of_ne_nil' {β : Type} {l : List β} (a : β)
    (h : l ≠ []) : (a :: l).dropLast = a :: l.dropLast := by
  cases l with
  | nil => exact absurd rfl h
  | cons b bs => rfl

/-- Prepending newline-free text to a string extends its first line and
leaves the remaining lines alone: the model of
`lines[0] = reminder + lines[0]`. -/
lemma splitOnNl_prepend (rem s : List Char) (h : '\n' ∉ rem) :
    splitOnNl (rem ++ s) = (rem ++ (splitOnNl s).headD []) :: (splitOnNl s).tail := by
  induction rem with
  | nil =>
    simp only [List.nil_append]
    cases hsp : splitOnNl s with
    | nil => exact absurd hsp (splitOnNl_ne_nil s)
    | cons a as => simp
  | cons c cs ih =>
    have hc : c ≠ '\n' := by intro hc; exact h (by simp [hc])
    have hcs : '\n' ∉ cs := by intro hm; exact h (by simp [hm])
    have hL : splitOnNl (c :: (cs ++ s)) =
        (c :: (splitOnNl (cs ++ s)).headD []) :: (splitOnNl (cs ++ s)).tail := by
      simp only [splitOnNl, if_neg hc]
    rw [List.cons_append, hL, ih hcs]
    simp

/-- Splitting a concatenation: the lines of `a ++ b` are the lines of `a`
except its last, followed by the lines of (last line of `a` ++ `b`).
This is the algebra behind the chunked reader's remainder handling. -/
lemma splitOnNl_append (a b : List Char) :
    splitOnNl (a ++ b) =
      (splitOnNl a).dropLast ++ splitOnNl ((splitOnNl a).getLastD [] ++ b) := by
  induction a with
  | nil => simp [splitOnNl]
  | cons c cs ih =>
    by_cases hc : c = '\n'
    · subst hc
      have hne := splitOnNl_ne_nil cs
      have h1 : splitOnNl ('\n' :: (cs ++ b)) = [] :: splitOnNl (cs ++ b) := by
        simp [splitOnNl]
      have h2 : splitOnNl ('\n' :: cs) = [] :: splitOnNl cs := by
        simp [splitOnNl]
      rw [List.cons_append, h1, h2, dropLast_cons_of_ne_nil' _ hne,
        getLastD_cons_of_ne_nil _ _ hne, List.cons_append, ih]
    · have hL : splitOnNl (c :: (cs ++ b)) =
          (c :: (splitOnNl (cs ++ b)).headD []) :: (splitOnNl (cs ++ b)).tail := by
        simp only [splitOnNl, if_neg hc]
      have hR : splitOnNl (c :: cs) =
          (c :: (splitOnNl cs).headD []) :: (splitOnNl cs).tail := by
        simp only [splitOnNl, if_neg hc]
      cases hsp : splitOnNl cs with
      | nil => exact absurd hsp (splitOnNl_ne_nil cs)
      | cons s0 srest =>
        cases srest with
        | nil =>
          -- splitOnNl cs = [s0]: the whole of cs is one line
          have hU : splitOnNl (c :: (s0 ++ b)) =
              (c :: (splitOnNl (s0 ++ b)).headD []) :: (splitOnNl (s0 ++ b)).tail := by
            simp only [splitOnNl, if_neg hc]
          rw [List.cons_append, hL, ih, hsp, hR, hsp]
          simp only [List.dropLast_single, List.nil_append, List.getLastD_cons,
            List.getLastD_nil, List.headD_cons, List.tail_cons]
          rw [List.cons_append, hU]
        | cons s1 srest' =>
          have hne : s1 :: srest' ≠ ([] : List (List Char)) := by simp
          rw [List.cons_append, hL, ih, hsp, hR, hsp,
            dropLast_cons_of_ne_nil' s0 hne, getLastD_cons_of_ne_nil s0 [] hne]
          simp only [List.headD_cons, List.tail_cons]
          rw [dropLast_cons_of_ne_nil' (c :: s0) hne,
            getLastD_cons_of_ne_nil (c :: s0) [] hne]
          simp

/-!
Embedding of `find_entries` (access_log.py lines 35-126).  The function is
split, following the file's own two phases, into

  * `locate_start`  -- the binary search of lines 42-86 (the spec's
    WindowLocator, 4.2);
  * `read_window`   -- the sequential chunked scan plus the error-rate
    check of lines 88-124 (the spec's WindowReader, 4.3);
  * `find_entries`  -- their composition, lines 35-126.

Both loops are written with an explicit fuel argument so that they are
structurally recursive and computable by the kernel; `locate_start` and
`read_window` instantiate the fuel with a bound derived from the input, and
the sufficiency of the binary-search fuel is proved (claim C10).
-/

/-- Inner for-loop of the binary search (lines 62-75): walk the interior
lines of a chunk, tracking the byte offset `cpos` of the current line, the
offset of the last-seen line with timestamp at or after `tf` (`fp`,
`first_pos`) and of the last-seen line with earlier timestamp (`sp`,
`second_pos`); stop as soon as both are known. -/
def scanLines {α : Type} (parse : List Char → Option α) (ts : α → ℤ) (tf : ℤ) :
    List (List Char) → ℕ → Option ℕ → Option ℕ → Option ℕ × Option ℕ
  | [], _, fp, sp => (fp, sp)
  | l :: rest, cpos, fp, sp =>
    match parse l with
    | none => scanLines parse ts tf rest (cpos + l.length + 1) fp sp
    | some p =>
      let fp1 := if tf ≤ ts p then some cpos else fp
      let sp1 := if ts p < tf then some cpos else sp
      if fp1.isSome && sp1.isSome then (fp1, sp1)
      else scanLines parse ts tf rest (cpos + l.length + 1) fp1 sp1

/-- Binary-search loop of `find_entries` (lines 47-82) over the byte
interval from `s` to `e`.  Each probe reads `min cs (e - s)` bytes at
`pos`, discards the chunk's first and last lines, and classifies the rest;
`some none` models returning `None` (NotFound), `some (some o)` returning
offset `o`, and `none` fuel exhaustion (shown unreachable for the fuel
used by `locate_start`). -/
def findStartAux {α : Type} (file : List Char) (parse : List Char → Option α)
    (ts : α → ℤ) (tf : ℤ) (cs : ℕ) : ℕ → ℕ → ℕ → Option (Option ℕ)
  | 0, _, _ => none
  | fuel + 1, s, e =>
    let pos := s + (e - s) / 2
    let chunk := (file.drop pos).take (min cs (e - s))
    let lines := splitOnNl chunk
    let interior := (lines.drop 1).dropLast
    if interior = [] then some none
    else
      let chunkPos := pos + (lines.headD []).length + 1
      match scanLines parse ts tf interior chunkPos none none with
      | (some fp, some _) => some (some fp)
      | (some _, none) => findStartAux file parse ts tf cs fuel s pos
      | (none, none) => findStartAux file parse ts tf cs fuel s pos
      | (none, some _) => findStartAux file parse ts tf cs fuel pos e

/-- WindowLocator entry point: the binary search over the whole file,
`start = 0`, `end = os.path.getsize(access_log)` (line 43-44).  The fuel
`file.length + 1` is sufficient (claim C10). -/
def locate_start {α : Type} (file : List Char) (parse : List Char → Option α)
    (ts : α → ℤ) (tf : ℤ) (cs : ℕ) : Option (Option ℕ) :=
  findStartAux file parse ts tf cs (file.length + 1) 0 file.length

/-- Errors the reader can surface: `emptyChunkIndex` models the Python
`IndexError` from evaluating `chunk[-1]` on an empty chunk (line 100),
`tooManyParseErrors` the `OperationalError` of line 122, and `outOfFuel`
exhaustion of the recursion bound. -/
inductive RErr : Type
  | emptyChunkIndex
  | tooManyParseErrors
  | outOfFuel
deriving DecidableEq

instance {E Y : Type} [DecidableEq E] [DecidableEq Y] : DecidableEq (Except E Y) := fun a b =>
  match a, b with
  | .error e, .error f =>
    if h : e = f then .isTrue (by rw [h])
    else .isFalse (fun hh => h (Except.error.inj hh))
  | .ok x, .ok y =>
    if h : x = y then .isTrue (by rw [h])
    else .isFalse (fun hh => h (Except.ok.inj hh))
  | .error _, .ok _ => .isFalse (fun hh => Except.noConfusion hh)
  | .ok _, .error _ => .isFalse (fun hh => Except.noConfusion hh)

/-- Inner for-loop of the window read (lines 101-116): parse each complete
line, skipping empty ones, counting parse failures in `errs` and parsed
lines in `nls`; append records with timestamp before `tt` and stop (with
the `done` flag) at the first parsed line at or past `tt`. -/
def processLines {α : Type} (parse : List Char → Option α) (ts : α → ℤ) (tt : ℤ) :
    List (List Char) → List α → ℕ → ℕ → List α × ℕ × ℕ × Bool
  | [], acc, errs, nls => (acc, errs, nls, false)
  | l :: rest, acc, errs, nls =>
    if l = [] then processLines parse ts tt rest acc errs nls
    else
      match parse l with
      | none => processLines parse ts tt rest acc (errs + 1) nls
      | some p =>
        if ts p < tt then processLines parse ts tt rest (acc ++ [p]) errs (nls + 1)
        else (acc, errs, nls + 1, true)

/-- Chunked read loop of `find_entries` (lines 96-119): read `cs` bytes at
a time from the unread suffix `rest`, prepend the held-back partial line
`rem` to the chunk's first line, process all complete lines (holding the
last line back when the chunk does not end in a newline), and stop when a
line reaches `tt` or the chunk comes up short (end of file).  Reading an
empty chunk faults exactly as `chunk[-1]` does in Python. -/
def readAux {α : Type} (parse : List Char → Option α) (ts : α → ℤ) (tt : ℤ)
    (cs : ℕ) : ℕ → List Char → List Char → List α → ℕ → ℕ →
    Except RErr (List α × ℕ × ℕ)
  | 0, _, _, _, _, _ => .error .outOfFuel
  | fuel + 1, rest, rem, acc, errs, nls =>
    let chunk := rest.take cs
    if chunk = [] then .error .emptyChunkIndex
    else
      let lines := splitOnNl chunk
      let lines1 := (rem ++ lines.headD []) :: lines.tail
      let hasRem := chunk.getLastD ' ' ≠ '\n'
      let toProcess := if hasRem then lines1.dropLast else lines1
      match processLines parse ts tt toProcess acc errs nls with
      | (acc1, errs1, nls1, doneFlag) =>
        let rem1 := if hasRem then lines1.getLastD [] else []
        if doneFlag = true ∨ chunk.length < cs then .ok (acc1, errs1, nls1)
        else readAux parse ts tt cs fuel (rest.drop cs) rem1 acc1 errs1 nls1

/-- WindowReader entry point: seek to `startPos` (line 89), run the chunk
loop with an empty remainder and empty accumulators, then apply the
error-rate circuit breaker of lines 121-124: fail with
`tooManyParseErrors` when at least one line parsed and
`errs / nls > th`, where `nls` counts successfully parsed lines. -/
def read_window {α : Type} (file : List Char) (parse : List Char → Option α)
    (ts : α → ℤ) (startPos : ℕ) (tt : ℤ) (cs : ℕ) (th : ℚ) :
    Except RErr (List α) :=
  let suffix := file.drop startPos
  match readAux parse ts tt cs (suffix.length + 1) suffix [] [] 0 0 with
  | .error e => .error e
  | .ok (es, errs, nls) =>
    if 0 < nls ∧ (errs : ℚ) / (nls : ℚ) > th then .error .tooManyParseErrors
    else .ok es

/-- Model of `find_entries(access_log, log_parser, time_from, time_to,
chunk_size, parser_errors_threshold)` (lines 35-126): binary-search for
the start offset; on NotFound return `None` (line 86) without running the
error-rate check; otherwise read the window from the found offset and
apply the check. -/
def find_entries {α : Type} (file : List Char) (parse : List Char → Option α)
    (ts : α → ℤ) (tf tt : ℤ) (cs : ℕ) (th : ℚ) :
    Except RErr (Option (List α)) :=
  match locate_start file parse ts tf cs with
  | none => .error .outOfFuel
  | some none => .ok none
  | some (some fp) => (read_window file parse ts fp tt cs th).map some

/-!
A concrete line format used for evaluating the model on explicit inputs:
a line is parseable exactly when it is a non-empty string of decimal
digits, and its timestamp is its decimal value.  This plays the role of a
black-box `apache_log_parser.Parser` instance.
-/

/-- Concrete example parser: a non-empty all-digit line parses to its
decimal value, used as the record's timestamp; anything else raises
`LineDoesntMatchException` (returns `none`). -/
def parseNum (l : List Char) : Option ℤ :=
  if l ≠ [] ∧ l.all Char.isDigit then
    some (l.foldl (fun a c => a * 10 + ((c.toNat : ℤ) - 48)) 0)
  else none

example : parseNum "25".toList = some 25 := by decide
example : parseNum "x".toList = none := by decide
example : parseNum [] = none := by decide
example : splitOnNl "10\n25\n".toList = ["10".toList, "25".toList, []] := by decide

/-!
Evaluation lemmas: `read_window` and `find_entries` differ from their
loops only by the error-rate check and the NotFound dispatch; these
lemmas expose that last step so concrete runs can be computed by `decide`
on the loops and `norm_num` on the rational threshold comparison.
-/

lemma read_window_eval_ok {α : Type} (file : List Char)
    (parse : List Char → Option α) (ts : α → ℤ) (startPos : ℕ) (tt : ℤ)
    (cs : ℕ) (th : ℚ) (es : List α) (errs nls : ℕ)
    (h : readAux parse ts tt cs ((file.drop startPos).length + 1)
      (file.drop startPos) [] [] 0 0 = .ok (es, errs, nls))
    (hth : ¬(0 < nls ∧ (errs : ℚ) / (nls : ℚ) > th)) :
    read_window file parse ts startPos tt cs th = .ok es := by
  simp only [read_window]
  rw [h]
  simp [hth]

lemma read_window_eval_raise {α : Type} (file : List Char)
    (parse : List Char → Option α) (ts : α → ℤ) (startPos : ℕ) (tt : ℤ)
    (cs : ℕ) (th : ℚ) (es : List α) (errs nls : ℕ)
    (h : readAux parse ts tt cs ((file.drop startPos).length + 1)
      (file.drop startPos) [] [] 0 0 = .ok (es, errs, nls))
    (hth : 0 < nls ∧ (errs : ℚ) / (nls : ℚ) > th) :
    read_window file parse ts startPos tt cs th = .error .tooManyParseErrors := by
  simp only [read_window]
  rw [h]
  simp [hth]

lemma read_window_eval_fault {α : Type} (file : List Char)
    (parse : List Char → Option α) (ts : α → ℤ) (startPos : ℕ) (tt : ℤ)
    (cs : ℕ) (th : ℚ) (e : RErr)
    (h : readAux parse ts tt cs ((file.drop startPos).length + 1)
      (file.drop startPos) [] [] 0 0 = .error e) :
    read_window file parse ts startPos tt cs th = .error e := by
  simp only [read_window]
  rw [h]

lemma find_entries_eval_notfound {α : Type} (file : List Char)
    (parse : List Char → Option α) (ts : α → ℤ) (tf tt : ℤ) (cs : ℕ) (th : ℚ)
    (h : locate_start file parse ts tf cs = some none) :
    find_entries file parse ts tf tt cs th = .ok none := by
  simp only [find_entries]
  rw [h]

lemma find_entries_eval_found {α : Type} (file : List Char)
    (parse : List Char → Option α) (ts : α → ℤ) (tf tt : ℤ) (cs : ℕ) (th : ℚ)
    (fp : ℕ) (h : locate_start file parse ts tf cs = some (some fp)) :
    find_entries file parse ts tf tt cs th =
      (read_window file parse ts fp tt cs th).map some := by
  simp only [find_entries]
  rw [h]

/-!
Termination of the binary search (claim C10).  The measure is the width
`e - s` of the interval.  A probe whose chunk has no complete interior
line (fewer than two newlines, hence in particular any interval of width
at most 1, whose chunk has at most one character) exits immediately with
NotFound; any other probe either converges or strictly shrinks the
interval, because a chunk with two newlines has at least 2 characters, so
`e - s ≥ 2` and both `pos - s` and `e - pos` are strictly smaller than
`e - s`.
-/

lemma findStartAux_isSome {α : Type} (file : List Char)
    (parse : List Char → Option α) (ts : α → ℤ) (tf : ℤ) (cs : ℕ) :
    ∀ fuel s e, e - s < fuel →
      (findStartAux file parse ts tf cs fuel s e).isSome = true := by
  intro fuel
  induction fuel with
  | zero => intro s e h; omega
  | succ f ih =>
    intro s e h
    simp only [findStartAux, List.drop_one]
    set pos := s + (e - s) / 2 with hpos
    set chunk := (file.drop pos).take (min cs (e - s)) with hchunk
    by_cases hI : ((splitOnNl chunk).tail).dropLast = []
    · simp [hI]
    · have hlines : 3 ≤ (splitOnNl chunk).length := by
        have h0 : 0 < (((splitOnNl chunk).tail).dropLast).length :=
          List.length_pos.mpr hI
        rw [List.length_dropLast, List.length_tail] at h0
        omega
      have hcount : 2 ≤ chunk.count '\n' := by
        have := splitOnNl_length chunk
        omega
      have hclen : 2 ≤ chunk.length :=
        le_trans hcount (List.count_le_length '\n' chunk)
      have hwidth : 2 ≤ e - s := by
        have h1 : chunk.length ≤ min cs (e - s) := by
          rw [hchunk]
          exact le_trans (List.length_take_le _ _) (le_refl _)
        have h2 : min cs (e - s) ≤ e - s := min_le_right _ _
        omega
      rw [if_neg hI]
      rcases hscan : scanLines parse ts tf (((splitOnNl chunk).tail).dropLast)
          (pos + ((splitOnNl chunk).headD []).length + 1) none none with ⟨fp, sp⟩
      rcases fp with _ | fpv <;> rcases sp with _ | spv
      · simp only [hscan]
        exact ih s pos (by omega)
      · simp only [hscan]
        exact ih pos e (by omega)
      · simp only [hscan]
        exact ih s pos (by omega)
      · simp only [hscan]
        rfl

/-- C10: for every file, parser, lower bound and chunk size the
binary-search loop of `find_entries` terminates: the fuel `file.length + 1`
(one unit per possible interval width) is never exhausted, because every
iteration either exits -- immediately so when the chunk is too small to
contain a complete interior line -- or strictly shrinks the interval.
This holds in particular for files with no parseable lines at all, where
every probe reports neither candidate and the interval collapses. -/
theorem C10_binary_search_terminates {α : Type} (file : List Char)
    (parse : List Char → Option α) (ts : α → ℤ) (tf : ℤ) (cs : ℕ) :
    (locate_start file parse ts tf cs).isSome = true :=
  findStartAux_isSome file parse ts tf cs (file.length + 1) 0 file.length
    (by omega)

/-!
Concrete inputs used to evaluate the model.  `exFile` is a well-formed,
newline-terminated, time-ordered log: four lines with timestamp 10
followed by one line with timestamp 25.
-/

def exFile : List Char := "10\n10\n10\n10\n25\n".toList

/-- C1: the claim fails on the code.  In `exFile` every line parses and
has timestamp at least 10, so the first line of the file is the first
line with timestamp `>= 10`; yet the binary search returns NotFound
(`None`), because a file containing no line with timestamp strictly
before the target never produces a candidate-before line, so the search
narrows leftward until no complete interior line remains.  This
contradicts the function's own docstring ("returns a list of log entries
that match the specified date and time ... If no entries are found, the
function returns None"). -/
theorem C1_locator_misses_matching_lines :
    (∀ l ∈ splitOnNl exFile, l ≠ [] → ∃ r, parseNum l = some r ∧ (10:ℤ) ≤ r) ∧
    locate_start exFile parseNum id 10 1024 = some none := by
  constructor
  · decide
  · decide

/-- C6: window adjacency fails on the code, through the same locator
defect as C1.  With `A = 10 < B = 20 < C = 30` on the time-ordered
`exFile`: the scan of `[A, C)` (and of `[A, B)`) returns NotFound because
no line of the file has timestamp before `A`, while the scan of `[B, C)`
finds the boundary (the probe chunk contains both a before- and an
after-line) and returns the record with timestamp 25.  So concatenating
the `[A, B)` and `[B, C)` results yields one record where the direct
`[A, C)` scan yields none. -/
theorem C6_window_adjacency_fails :
    find_entries exFile parseNum id 10 30 1024 (1/5) = .ok none ∧
    find_entries exFile parseNum id 10 20 1024 (1/5) = .ok none ∧
    find_entries exFile parseNum id 20 30 1024 (1/5) = .ok (some [25]) := by
  refine ⟨?_, ?_, ?_⟩
  · exact find_entries_eval_notfound _ _ _ _ _ _ _ (by decide)
  · exact find_entries_eval_notfound _ _ _ _ _ _ _ (by decide)
  · rw [find_entries_eval_found exFile parseNum id 20 30 1024 (1/5) 12 (by decide),
      read_window_eval_ok exFile parseNum id 12 30 1024 (1/5) [25] 0 1
        (by decide) (by norm_num)]
    rfl

/-- C9: the claim fails on the code.  When the distance from the start
offset to end of file is a positive exact multiple of `chunk_size` (here
2 bytes with `chunk_size = 2`) and the window end is not reached, the
read loop's final full chunk does not set `done`, so the next iteration
reads an empty chunk and evaluates `chunk[-1]` on it -- an IndexError,
modelled as `emptyChunkIndex`. -/
theorem C9_empty_chunk_indexed :
    ("7\n".toList.drop 0).length % 2 = 0 ∧ 0 < ("7\n".toList.drop 0).length ∧
    read_window "7\n".toList parseNum id 0 100 2 (1/5) = .error .emptyChunkIndex := by
  refine ⟨by decide, by decide, ?_⟩
  exact read_window_eval_fault _ _ _ _ _ _ _ _ (by decide)

/-!
Claim C2: the error-rate circuit breaker.  In the code (line 107)
`num_lines` is incremented only when `log_parser.parse` succeeds, so the
denominator of the post-scan check `num_errors / num_lines` counts
successfully parsed lines, not attempted lines.  `c2File` is a window of
100 lines of which 79 fail to parse: the code raises (79/21 > 0.2),
refuting the claim's assertion that 79 failures in 100 lines do not
raise.
-/

def c2File : List Char :=
  (List.replicate 21 "7\n".toList ++ List.replicate 79 "x\n".toList).flatten

/-- C2 (counterexample): a window of 100 lines with 79 parse failures and
21 parsed lines raises `TooManyParseErrors` under the default threshold
0.2, since the code divides errors by *parsed* lines: 79/21 > 1/5.  The
claim asserts this window does not raise. -/
theorem C2_threshold_cex :
    ((splitOnNl c2File).filter (fun l => !l.isEmpty)).length = 100 ∧
    ((splitOnNl c2File).filter
      (fun l => !l.isEmpty && (parseNum l).isNone)).length = 79 ∧
    read_window c2File parseNum id 0 100 1024 (1/5) = .error .tooManyParseErrors := by
  refine ⟨by decide, by decide, ?_⟩
  exact read_window_eval_raise c2File parseNum id 0 100 1024 (1/5)
    (List.replicate 21 (7:ℤ)) 79 21 (by decide) (by norm_num)

/-- C2 (amended): after the window read completes without faulting, the
read raises `TooManyParseErrors` if and only if at least one line parsed
successfully and (parse failures) / (successfully parsed lines) exceeds
the threshold -- the denominator counts successes, not attempts; with
threshold 0.2, a window of 100 lines of which 79 fail to parse (21
parse) raises, since 79/21 > 1/5, and a window in which every line fails
to parse never raises (the denominator is then zero and the check is
skipped). -/
theorem C2_error_rate_iff {α : Type} (file : List Char)
    (parse : List Char → Option α) (ts : α → ℤ) (startPos : ℕ) (tt : ℤ)
    (cs : ℕ) (th : ℚ) (es : List α) (errs nls : ℕ)
    (h : readAux parse ts tt cs ((file.drop startPos).length + 1)
      (file.drop startPos) [] [] 0 0 = .ok (es, errs, nls)) :
    read_window file parse ts startPos tt cs th = .error .tooManyParseErrors ↔
      (0 < nls ∧ (errs : ℚ) / (nls : ℚ) > th) := by
  simp only [read_window]
  rw [h]
  by_cases hth : 0 < nls ∧ (errs : ℚ) / (nls : ℚ) > th
  · simp [hth]
  · simp [hth]

/-- Witness for `C2_error_rate_iff` at the concrete 79-of-100 window. -/
theorem C2_error_rate_iff_w :
    read_window c2File parseNum id 0 100 1024 (1/5) = .error .tooManyParseErrors :=
  (C2_error_rate_iff c2File parseNum id 0 100 1024 (1/5)
    (List.replicate 21 (7:ℤ)) 79 21 (by decide)).mpr (by norm_num)

/-!
Embedding of the per-key window cache: `round_time_minutes` (lines 29-32)
and `AccessLogProvider.update` (lines 162-189).

Times are modelled as non-negative seconds (`ℕ`); `round_time_minutes`
keeps the hour, replaces the minute-of-hour by its largest multiple of
`m` below it, and zeroes seconds, exactly as the Python
`time.replace(minute=(time.minute // minutes) * minutes, second=0,
microsecond=0)`.

`update` is modelled for a single key.  The underlying
`find_entries(self.access_log, self.log_parser, tf, tt)` call is passed
in as an oracle `scan : ℕ → ℕ → Except E (Option (List α))` (its result
for the window it is given), and the pandas post-processing of lines
175-180 (`pd.DataFrame`, numeric coercion, `dropna`) as an opaque
row-transform `postproc` -- pandas is an external collaborator.  The
returned `Except E Bool` is the Python return value (`True` when a scan
ran, `False` when the cached entry was reused) or the propagated scan
exception.  Crucially, `data = self.data.get(id, ...)` aliases the stored
entry, and lines 170-171 assign `data.time_from`/`data.time_to` *before*
the scan runs; the model mirrors this by exposing the mutated entry in
the returned cache even when the scan fails, exactly when the key was
already present (a fresh entry is only linked into the cache by
`self.data[id] = data` on the success path).
-/

/-- Model of `round_time_minutes(time, minutes)` (lines 29-32) on a time
in seconds: keep the hour, floor the minute-of-hour to a multiple of `m`,
zero out seconds. -/
def round_time_minutes (t m : ℕ) : ℕ :=
  t - t % 3600 + t / 60 % 60 / m * m * 60

/-- One cache entry (`Map(data=..., time_from=..., time_to=...)` plus the
`updated_time` field set on line 181); `data = none` models both the
uninitialized default and the Empty result of a scan that found
nothing. -/
structure CEntry (α : Type) where
  data : Option (List α)
  time_from : ℕ
  time_to : ℕ
  updated_time : Option ℕ
deriving DecidableEq

/-- Model of `AccessLogProvider.update` (lines 162-189) for one key.
`cache` is `self.data.get(id)` (`none` when the key is absent), `now` the
clock reading `_time`, `wall` the wall-clock value stored into
`updated_time` on success, `td` the `time_delta`. -/
def update {α E : Type} [DecidableEq α] (scan : ℕ → ℕ → Except E (Option (List α)))
    (postproc : List α → List α) (cache : Option (CEntry α))
    (now wall td : ℕ) : Option (CEntry α) × Except E Bool :=
  let d := cache.getD ⟨none, 0, 0, none⟩
  if d.data = none ∨ d.time_to < now then
    let tf := round_time_minutes (now - 60 * td) td
    let tt := round_time_minutes now td
    let d1 := { d with time_from := tf, time_to := tt }
    -- lines 170-171 mutate the aliased entry in place, before the scan
    let cacheMut := if cache.isSome then some d1 else none
    match scan tf tt with
    | .error e => (cacheMut, .error e)
    | .ok (some es) =>
      (some { d1 with data := some (postproc es), updated_time := some wall },
        .ok true)
    | .ok none =>
      (some { d1 with data := none, updated_time := none }, .ok true)
  else (cache, .ok false)

/-- Constant scan oracle that always finds one record, used to exhibit
the re-scan behaviour of `update`. -/
def scanC3 : ℕ → ℕ → Except Unit (Option (List ℤ)) := fun _ _ => .ok (some [7])

/-- C3 (counterexample): two `update` calls at clock readings 70s and 80s
round to the same window (`time_to` = 60s for both), yet both calls
perform a scan (both return `True`): the staleness test of line 169 is
`_time > data.time_to` with `time_to` rounded *down*, so any second
reading strictly inside the window (here 80 > 60) re-scans.  The claim
says the second call returns the cached entry without scanning. -/
theorem C3_same_window_rescans :
    round_time_minutes 70 1 = round_time_minutes 80 1 ∧
    (update scanC3 id none 70 99 1).2 = .ok true ∧
    (update scanC3 id (update scanC3 id none 70 99 1).1 80 99 1).2 = .ok true := by
  exact ⟨by decide, rfl, rfl⟩

/-- C3 (amended): a call to `update` on a key with a cached entry skips
the scan (returns the entry unchanged with result `False`) if and only if
the cached records are present (`data` is not `None`) and the clock
reading does not exceed the stored `time_to`.  Since `time_to` is the
clock reading rounded down, two readings that merely round to the same
`time_to` do not suffice: unless the second reading falls exactly on the
window boundary, each call re-scans; and after a scan that found nothing
(`data = None`), every subsequent call re-scans. -/
theorem C3_skip_iff {α E : Type} [DecidableEq α]
    (scan : ℕ → ℕ → Except E (Option (List α))) (postproc : List α → List α)
    (d : CEntry α) (now wall td : ℕ) :
    update scan postproc (some d) now wall td = (some d, .ok false) ↔
      (d.data ≠ none ∧ now ≤ d.time_to) := by
  by_cases hc : d.data = none ∨ d.time_to < now
  · constructor
    · intro h
      exfalso
      simp only [update, Option.getD_some, if_pos hc, Option.isSome_some,
        if_pos rfl] at h
      rcases hscan : scan (round_time_minutes (now - 60 * td) td)
          (round_time_minutes now td) with e | oes
      · rw [hscan] at h
        exact Except.noConfusion (congrArg Prod.snd h)
      · rcases oes with _ | es
        · rw [hscan] at h
          have := congrArg Prod.snd h
          simp at this
        · rw [hscan] at h
          have := congrArg Prod.snd h
          simp at this
    · intro hh
      rcases hc with hc | hc
      · exact absurd hc hh.1
      · omega
  · push_neg at hc
    constructor
    · intro _
      exact ⟨hc.1, by omega⟩
    · intro _
      have hcond : ¬(d.data = none ∨ d.time_to < now) := by
        push_neg
        exact hc
      simp only [update, Option.getD_some, if_neg hcond]

/-- Scan oracle that always fails, modelling an I/O failure or
`TooManyParseErrors` raised inside `find_entries`. -/
def scanC4 : ℕ → ℕ → Except RErr (Option (List ℤ)) :=
  fun _ _ => .error .tooManyParseErrors

/-- Pre-existing cache entry used for the C4 counterexample: records for
the window from 0s to 60s. -/
def c4Entry : CEntry ℤ := ⟨some [5], 0, 60, some 1⟩

/-- C4 (counterexample): a failing scan does *not* leave the cache entry
unchanged.  Starting from an entry holding records for window
0s-60s, an `update` at clock reading 130s whose scan fails leaves the
entry with the *new* window 60s-120s but the *old* records: lines 170-171
assign `data.time_from`/`data.time_to` on the aliased cached entry before
`find_entries` is called, so the exception propagates after the window
fields were already overwritten. -/
theorem C4_entry_changed_on_error :
    (update scanC4 id (some c4Entry) 130 99 1).2 = .error RErr.tooManyParseErrors ∧
    (update scanC4 id (some c4Entry) 130 99 1).1 =
      some ⟨some [5], 60, 120, some 1⟩ ∧
    (update scanC4 id (some c4Entry) 130 99 1).1 ≠ some c4Entry := by
  exact ⟨rfl, rfl, by decide⟩

/-- C4 (amended): when the staleness test passes and the scan fails with
any error, an existing cache entry keeps its records and `updated_time`
but its `time_from`/`time_to` fields are already overwritten with the new
window (the entry is mutated in place before the scan runs); only a key
with no prior entry is left absent from the cache on failure, because
`self.data[id] = data` is reached only on the success path. -/
theorem C4_failed_scan_mutates_window {α E : Type} [DecidableEq α]
    (scan : ℕ → ℕ → Except E (Option (List α))) (postproc : List α → List α)
    (d : CEntry α) (now wall td : ℕ) (e : E)
    (h1 : d.time_to < now)
    (h2 : scan (round_time_minutes (now - 60 * td) td)
      (round_time_minutes now td) = .error e) :
    update scan postproc (some d) now wall td =
      (some { d with time_from := round_time_minutes (now - 60 * td) td,
                     time_to := round_time_minutes now td }, .error e) ∧
    update scan postproc none now wall td = (none, .error e) := by
  constructor
  · simp only [update, Option.getD_some, if_pos (Or.inr h1), Option.isSome_some,
      if_pos rfl, h2]
    simp
  · have hcond : (⟨none, 0, 0, none⟩ : CEntry α).data = none ∨
        (⟨none, 0, 0, none⟩ : CEntry α).time_to < now := Or.inl rfl
    simp only [update, Option.getD_none, if_pos hcond, Option.isSome_none, h2]
    rfl

/-- Witness for `C4_failed_scan_mutates_window` at the concrete failing
scan and entry of the counterexample. -/
theorem C4_failed_scan_mutates_window_w :
    update scanC4 id (some c4Entry) 130 99 1 =
      (some { c4Entry with time_from := round_time_minutes (130 - 60 * 1) 1,
                           time_to := round_time_minutes 130 1 },
        .error RErr.tooManyParseErrors) ∧
    update scanC4 id none 130 99 1 = (none, .error RErr.tooManyParseErrors) :=
  C4_failed_scan_mutates_window scanC4 id c4Entry 130 99 1
    RErr.tooManyParseErrors (by decide) rfl

/-!
Embedding of the aggregation stage `AccessLogProvider.stats`
(lines 191-215).  The stage operates on the pandas DataFrame the cache
stores (`pd.DataFrame(entries)` built from the parser's dict-per-line
records).  pandas is an external library; the fragment of its semantics
the code relies on is modelled from pandas' documented behaviour:

  * `pd.DataFrame(list_of_dicts)`: columns are the union of the dicts'
    keys in order of first appearance; a row missing a column holds NaN;
  * a row `Series` contains a key (`k in row`) iff `k` is a *column*,
    even when the row's value there is NaN; `NaN == v` is false for
    every `v` (including NaN);
  * `df.groupby(cols)` raises `KeyError` when some name in `cols` is not
    a column (in particular always on a DataFrame built from an empty
    record list, which has no columns), and, with the default
    `dropna=True`, excludes every row whose group key contains NaN;
    pandas additionally sorts the group keys (`sort=True`), which is
    modelled here as first-encounter order -- no property below depends
    on the order of groups.

Records are modelled as association lists `List (String × Val)`; a field
absent from the dict is distinct from a field stored as NaN.
-/

/-- A field value: integer, string, or pandas NaN (the fill value for a
record that lacks a column other records have). -/
inductive Val : Type
  | vint (n : ℤ)
  | vstr (s : String)
  | nan
deriving DecidableEq

/-- Pandas `==` on scalar values: NaN compares unequal to everything,
including itself. -/
def valEq : Val → Val → Bool
  | .vint a, .vint b => a == b
  | .vstr a, .vstr b => a == b
  | _, _ => false

/-- Test for the NaN value. -/
def isNan : Val → Bool
  | .nan => true
  | _ => false

/-- Columns of `pd.DataFrame(recs)`: union of the records' keys in order
of first appearance. -/
def dfCols (recs : List (List (String × Val))) : List String :=
  recs.foldl
    (fun acc r => acc ++ ((r.map Prod.fst).filter (fun k => !acc.contains k))) []

/-- The DataFrame model: its column list and its rows (the original
records; a row's value in a column it does not carry is NaN via
`rowVal`). -/
structure DF : Type where
  cols : List String
  rows : List (List (String × Val))
deriving DecidableEq

/-- Model of `pd.DataFrame(entries)` (line 175). -/
def mkDF (recs : List (List (String × Val))) : DF := ⟨dfCols recs, recs⟩

/-- Value of a row at a column: the stored value, or NaN when the record
lacks the field. -/
def rowVal (r : List (String × Val)) (k : String) : Val :=
  (List.lookup k r).getD .nan

/-- The row predicate of line 200:
`any(all(row[k] == v for k, v in f.items() if k in row) for f in filters)`.
`k in row` holds iff `k` is a column of the frame, and `row[k]` is NaN
for a record lacking the field, which `valEq` makes unequal to every
filter value. -/
def keepRow (cols : List String) (filters : List (List (String × Val)))
    (r : List (String × Val)) : Bool :=
  filters.any (fun f => f.all (fun kv =>
    if cols.contains kv.1 then valEq (rowVal r kv.1) kv.2 else true))

/-- The filter step of lines 198-202: `if filters:` skips an empty
filter list, otherwise keep the rows satisfying `keepRow`. -/
def filterStage (df : DF) (filters : List (List (String × Val))) : DF :=
  if filters.isEmpty then df
  else ⟨df.cols, df.rows.filter (keepRow df.cols filters)⟩

/-- Error of the aggregation stage: pandas `KeyError` from
`df.groupby(group)` when a group column is absent. -/
inductive AggErr : Type
  | keyError
deriving DecidableEq

/-- First-occurrence deduplication of the group keys. -/
def dedupKeys (l : List (List Val)) : List (List Val) :=
  l.foldl (fun acc k => if acc.contains k then acc else acc ++ [k]) []

/-- Model of `df.groupby(group)` (line 204) followed by iteration:
`KeyError` when some group name is not a column; otherwise rows whose
key tuple contains NaN are dropped (`dropna=True`), and the remaining
rows are partitioned by their key tuple. -/
def pdGroupBy (df : DF) (group : List String) :
    Except AggErr (List (List Val × List (List (String × Val)))) :=
  if group.all (fun g => df.cols.contains g) then
    let kept := df.rows.filter (fun r => group.all (fun g => !isNan (rowVal r g)))
    let keys := dedupKeys (kept.map (fun r => group.map (rowVal r)))
    .ok (keys.map (fun k => (k, kept.filter (fun r => group.map (rowVal r) == k))))
  else .error .keyError

/-- Model of the aggregation stage of `AccessLogProvider.stats`
(lines 194-215), given the cached data for the key (`none` models
`self.data[id].data is None`), the filter specification, the group-by
columns, the `stats_def` reducers, and the values the code stores under
`"id"` and `"time"`.  Produces one result dict per group: id and time,
then the group-key fields, then one entry per reducer. -/
def stats (dataOpt : Option (List (List (String × Val))))
    (filters : List (List (String × Val))) (group : List String)
    (stats_def : List (String × (List (List (String × Val)) → Val)))
    (idv timev : Val) : Except AggErr (List (List (String × Val))) :=
  match dataOpt with
  | none => .ok []
  | some recs =>
    let df1 := filterStage (mkDF recs) filters
    match pdGroupBy df1 group with
    | .error e => .error e
    | .ok groups =>
      .ok (groups.map (fun kg =>
        [("id", idv), ("time", timev)] ++ group.zip kg.1 ++
          stats_def.map (fun sd => (sd.1, sd.2 kg.2))))

lemma keepRow_iff (cols : List String) (filters : List (List (String × Val)))
    (r : List (String × Val)) :
    keepRow cols filters r = true ↔
      ∃ f ∈ filters, ∀ kv ∈ f, kv.1 ∉ cols ∨ valEq (rowVal r kv.1) kv.2 = true := by
  simp only [keepRow, List.any_eq_true, List.all_eq_true]
  refine exists_congr fun f => and_congr_right fun _ => ?_
  refine forall_congr' fun kv => forall_congr' fun _ => ?_
  by_cases h : kv.1 ∈ cols
  · have hb : cols.contains kv.1 = true := List.elem_iff.mpr h
    simp [hb, h]
  · have hb : cols.contains kv.1 = false := by
      rw [← Bool.not_eq_true, List.elem_iff]
      exact h
    simp [hb, h]

/-- The record-level keep criterion as the claim states it: every field a
constraint set names is either absent from the record's own mapping or
stored there with the given value. -/
def specKeep (filters : List (List (String × Val)))
    (r : List (String × Val)) : Prop :=
  filters = [] ∨ ∃ f ∈ filters, ∀ kv ∈ f,
    List.lookup kv.1 r = none ∨ List.lookup kv.1 r = some kv.2

/-- Record carrying only field `a`, and record carrying only field `b`:
together they build a DataFrame with columns `a` and `b`. -/
def c7RowA : List (String × Val) := [("a", .vint 1)]

def c7RowB : List (String × Val) := [("b", .vint 2)]

def c7Filters : List (List (String × Val)) := [[("a", .vint 1)]]

/-- C7 (counterexample): with records `{a: 1}` and `{b: 2}` and the
single constraint set `{a: 1}`, the claim keeps the second record (field
`a` is absent from it), but the code drops it: the DataFrame has column
`a` because the *other* record carries it, so `"a" in row` is true for
the second row, whose value there is NaN, and `NaN == 1` is false. -/
theorem C7_absent_field_excludes :
    specKeep c7Filters c7RowB ∧
    (filterStage (mkDF [c7RowA, c7RowB]) c7Filters).rows = [c7RowA] := by
  constructor
  · right
    exact ⟨[("a", .vint 1)], by decide, by decide⟩
  · decide

/-- C7 (amended): a record is kept by the filter stage iff the filter
list is empty or some constraint set is satisfied, where a constraint
set is satisfied exactly when every field it names is either absent from
the *DataFrame's columns* (absent from every record of the window) or
present in the row with a value equal (under pandas scalar equality,
which never accepts NaN) to the given value.  A field merely absent from
this record while other records carry it is a NaN cell that fails every
comparison and so excludes the record. -/
theorem C7_filter_stage_iff (df : DF) (filters : List (List (String × Val)))
    (r : List (String × Val)) :
    r ∈ (filterStage df filters).rows ↔
      r ∈ df.rows ∧ (filters = [] ∨ ∃ f ∈ filters, ∀ kv ∈ f,
        kv.1 ∉ df.cols ∨ valEq (rowVal r kv.1) kv.2 = true) := by
  simp only [filterStage]
  cases filters with
  | nil => simp
  | cons f0 frest =>
    have hne : (f0 :: frest).isEmpty = false := rfl
    simp only [hne, Bool.false_eq_true, if_false, List.mem_filter,
      keepRow_iff]
    constructor
    · rintro ⟨hr, hk⟩
      exact ⟨hr, Or.inr hk⟩
    · rintro ⟨hr, hk | hk⟩
      · exact absurd hk (by simp)
      · exact ⟨hr, hk⟩

/-- Reducer list used in the concrete aggregation runs: one statistic
`n` counting the records of the group. -/
def c8Stats : List (String × (List (List (String × Val)) → Val)) :=
  [("n", fun rs => .vint rs.length)]

/-- Record carrying the group field `g`, and a record lacking it. -/
def c8RowG : List (String × Val) := [("g", .vint 1)]

def c8RowNoG : List (String × Val) := [("h", .vint 9)]

/-- C8 (counterexample): aggregating an *empty* record sequence raises.
A scan can return an empty entry list (offset found but the first parsed
line already reaches `time_to`); the cached DataFrame is then empty with
no columns, so `df.groupby(["g"])` raises `KeyError` -- the aggregation
does not return `[]`.  And a record missing the group field `g` that
another record carries is NOT grouped under an implicit key: its group
key is NaN, pandas drops it, and the sole group contains only the other
record (`n = 1`). -/
theorem C8_degenerate_inputs_cex :
    stats (some []) [] ["g"] c8Stats (.vint 0) (.vint 0) = .error .keyError ∧
    stats (some [c8RowG, c8RowNoG]) [] ["g"] c8Stats (.vint 0) (.vint 0) =
      .ok [[("id", .vint 0), ("time", .vint 0), ("g", .vint 1), ("n", .vint 1)]] := by
  exact ⟨rfl, rfl⟩

/-- C8 (amended): the aggregation returns `[]` without error only when
the cache holds no data (`data is None`); aggregating a present-but-empty
record sequence raises `KeyError`, because the empty DataFrame has no
columns and every requested group column is absent; and a record whose
group-key tuple contains NaN (a `group_by` field it lacks) is excluded
from every group rather than grouped under an implicit key. -/
theorem C8_degenerate_inputs :
    (∀ filters group sd idv timev,
      stats none filters group sd idv timev = .ok []) ∧
    (∀ filters group sd idv timev g, g ∈ group →
      stats (some []) filters group sd idv timev = .error .keyError) ∧
    (∀ df group gs, pdGroupBy df group = .ok gs →
      ∀ kg ∈ gs, ∀ r ∈ kg.2, ∀ g ∈ group, isNan (rowVal r g) = false) := by
  refine ⟨fun _ _ _ _ _ => rfl, ?_, ?_⟩
  · intro filters group sd idv timev g hg
    have hcols : (filterStage (mkDF []) filters).cols = [] := by
      simp only [filterStage, mkDF, dfCols]
      split <;> rfl
    have hall : (group.all fun x => (filterStage (mkDF []) filters).cols.contains x) = false := by
      rw [Bool.eq_false_iff]
      intro hall
      have := (List.all_eq_true.mp hall) g hg
      rw [hcols] at this
      simp [List.contains] at this
    simp only [stats, pdGroupBy, hall, Bool.false_eq_true, if_false]
  · intro df group gs hok kg hkg r hr g hg
    simp only [pdGroupBy] at hok
    by_cases hall : (group.all fun x => df.cols.contains x) = true
    · rw [if_pos hall] at hok
      injection hok with hok
      subst hok
      rcases List.mem_map.mp hkg with ⟨k, hk, hkeq⟩
      subst hkeq
      have hr2 : r ∈ df.rows.filter
          (fun r => group.all (fun g => !isNan (rowVal r g))) :=
        (List.mem_filter.mp hr).1
      have := (List.mem_filter.mp hr2).2
      have := List.all_eq_true.mp this g hg
      simpa using this
    · rw [if_neg hall] at hok
      exact Except.noConfusion hok

/-- Witness for `C8_degenerate_inputs` at concrete inputs: absent cached
data aggregates to the empty list, and cached-but-empty data raises. -/
theorem C8_degenerate_inputs_w :
    stats none [] ["g"] c8Stats (.vint 0) (.vint 0) = .ok [] ∧
    stats (some []) [] ["g"] c8Stats (.vint 0) (.vint 0) = .error .keyError :=
  ⟨C8_degenerate_inputs.1 [] ["g"] c8Stats (.vint 0) (.vint 0),
    C8_degenerate_inputs.2.1 [] ["g"] c8Stats (.vint 0) (.vint 0) "g"
      (by decide)⟩

/-!
Soundness of the window reader (claim C5).  The key facts:

  * every record the reader appends had timestamp `< time_to` at the
    moment of the comparison on line 112 (`processLines_sound`);
  * every record is the parse of a complete, non-empty line of
    `reminder ++ unread-suffix`, maintained across chunk boundaries by
    the `splitOnNl` append/prepend algebra (`readAux_sound`);
  * the reader's input is `file.drop start_offset`, so records parsed
    from lines before the start offset cannot occur.
-/

lemma mem_dropLast_or_getLastD {β : Type} (d : β) :
    ∀ (L : List β) (x : β), x ∈ L → x ∈ L.dropLast ∨ x = L.getLastD d := by
  intro L
  induction L with
  | nil => intro x hx; exact absurd hx (List.not_mem_nil x)
  | cons a as ih =>
    intro x hx
    cases as with
    | nil =>
      rcases List.mem_cons.mp hx with h | h
      · right
        subst h
        simp [List.getLastD]
      · exact absurd h (List.not_mem_nil x)
    | cons b bs =>
      rcases List.mem_cons.mp hx with h | h
      · subst h
        left
        rw [dropLast_cons_of_ne_nil' x (by simp)]
        exact List.mem_cons_self _ _
      · rcases ih x h with h2 | h2
        · left
          rw [dropLast_cons_of_ne_nil' a (by simp)]
          exact List.mem_cons_of_mem a h2
        · right
          rw [getLastD_cons_of_ne_nil a d (by simp)]
          exact h2

lemma getLastD_append_of_ne_nil {β : Type} (d : β) (A : List β) :
    ∀ B : List β, B ≠ [] → (A ++ B).getLastD d = B.getLastD d := by
  induction A with
  | nil => intro B _; rfl
  | cons a as ih =>
    intro B hB
    rw [List.cons_append, getLastD_cons_of_ne_nil a d (by
      intro hc
      exact hB (List.append_eq_nil.mp hc).2), ih B hB]

lemma splitOnNl_getLastD_of_last_nl :
    ∀ s : List Char, s ≠ [] → s.getLastD ' ' = '\n' →
      (splitOnNl s).getLastD [] = [] := by
  intro s
  induction s with
  | nil => intro h; exact absurd rfl h
  | cons c cs ih =>
    intro _ hlast
    by_cases hcs : cs = []
    · subst hcs
      simp [List.getLastD] at hlast
      simp [splitOnNl, hlast, List.getLastD]
    · rw [getLastD_cons_of_ne_nil c ' ' hcs] at hlast
      have htail := ih hcs hlast
      by_cases hc : c = '\n'
      · have : splitOnNl (c :: cs) = [] :: splitOnNl cs := by
          simp [splitOnNl, hc]
        rw [this, getLastD_cons_of_ne_nil [] [] (splitOnNl_ne_nil cs)]
        exact htail
      · have hsn : splitOnNl (c :: cs) =
            (c :: (splitOnNl cs).headD []) :: (splitOnNl cs).tail := by
          simp only [splitOnNl, if_neg hc]
        -- cs contains a newline (its last char), so splitOnNl cs has ≥ 2 lines
        have hmem : '\n' ∈ cs := by
          have := getLastD_mem ' ' cs hcs
          rw [hlast] at this
          exact this
        have hcount : 1 ≤ cs.count '\n' := List.count_pos_iff.mpr hmem
        have hlen : 2 ≤ (splitOnNl cs).length := by
          rw [splitOnNl_length]
          omega
        cases hsp : splitOnNl cs with
        | nil => exact absurd hsp (splitOnNl_ne_nil cs)
        | cons x xs =>
          have hxs : xs ≠ [] := by
            intro hx
            rw [hsp, hx] at hlen
            simp at hlen
          rw [hsn, hsp]
          simp only [List.headD_cons, List.tail_cons]
          rw [getLastD_cons_of_ne_nil _ [] hxs]
          rw [hsp, getLastD_cons_of_ne_nil x [] hxs] at htail
          exact htail

lemma processLines_sound {α : Type} (parse : List Char → Option α) (ts : α → ℤ)
    (tt : ℤ) :
    ∀ (ls : List (List Char)) (acc : List α) (errs nls : ℕ),
      ∀ r ∈ (processLines parse ts tt ls acc errs nls).1,
        r ∈ acc ∨ (ts r < tt ∧ ∃ l ∈ ls, l ≠ [] ∧ parse l = some r) := by
  intro ls
  induction ls with
  | nil =>
    intro acc errs nls r hr
    simp only [processLines] at hr
    exact Or.inl hr
  | cons l rest ih =>
    intro acc errs nls r hr
    simp only [processLines] at hr
    by_cases hl : l = []
    · rw [if_pos hl] at hr
      rcases ih acc errs nls r hr with h | ⟨h1, l2, h2, h3⟩
      · exact Or.inl h
      · exact Or.inr ⟨h1, l2, List.mem_cons_of_mem _ h2, h3⟩
    · rw [if_neg hl] at hr
      cases hp : parse l with
      | none =>
        rw [hp] at hr
        rcases ih acc (errs + 1) nls r hr with h | ⟨h1, l2, h2, h3⟩
        · exact Or.inl h
        · exact Or.inr ⟨h1, l2, List.mem_cons_of_mem _ h2, h3⟩
      | some p =>
        rw [hp] at hr
        dsimp only at hr
        by_cases hts : ts p < tt
        · rw [if_pos hts] at hr
          rcases ih (acc ++ [p]) errs (nls + 1) r hr with h | ⟨h1, l2, h2, h3⟩
          · rcases List.mem_append.mp h with h | h
            · exact Or.inl h
            · have hrp : r = p := by simpa using h
              subst hrp
              exact Or.inr ⟨hts, l, List.mem_cons_self _ _, hl, hp⟩
          · exact Or.inr ⟨h1, l2, List.mem_cons_of_mem _ h2, h3⟩
        · rw [if_neg hts] at hr
          exact Or.inl hr

lemma readAux_sound {α : Type} (parse : List Char → Option α) (ts : α → ℤ)
    (tt : ℤ) (cs : ℕ) :
    ∀ (fuel : ℕ) (rest rem : List Char) (acc : List α) (errs nls : ℕ)
      (out : List α × ℕ × ℕ),
      '\n' ∉ rem →
      readAux parse ts tt cs fuel rest rem acc errs nls = .ok out →
      ∀ r ∈ out.1, r ∈ acc ∨
        (ts r < tt ∧ ∃ l ∈ splitOnNl (rem ++ rest), l ≠ [] ∧ parse l = some r) := by
  intro fuel
  induction fuel with
  | zero =>
    intro rest rem acc errs nls out hrem h
    exact absurd h (by simp [readAux])
  | succ f ih =>
    intro rest rem acc errs nls out hrem h
    simp only [readAux] at h
    by_cases hchunk : rest.take cs = []
    · rw [if_pos hchunk] at h
      exact absurd h (by simp)
    · rw [if_neg hchunk] at h
      have hTD : rest.take cs ++ rest.drop cs = rest := List.take_append_drop cs rest
      have h2 : splitOnNl (rem ++ rest.take cs) =
          (rem ++ (splitOnNl (rest.take cs)).headD []) ::
            (splitOnNl (rest.take cs)).tail :=
        splitOnNl_prepend rem (rest.take cs) hrem
      have hsplit : splitOnNl (rem ++ rest) =
          ((rem ++ (splitOnNl (rest.take cs)).headD []) ::
            (splitOnNl (rest.take cs)).tail).dropLast ++
          splitOnNl (((rem ++ (splitOnNl (rest.take cs)).headD []) ::
            (splitOnNl (rest.take cs)).tail).getLastD [] ++ rest.drop cs) := by
        conv_lhs => rw [← hTD, ← List.append_assoc]
        rw [splitOnNl_append, h2]
      set L1 := (rem ++ (splitOnNl (rest.take cs)).headD []) ::
          (splitOnNl (rest.take cs)).tail with hL1def
      have hL1ne : L1 ≠ [] := by simp [hL1def]
      have hL1eq : L1 = splitOnNl (rem ++ rest.take cs) := h2.symm
      have hnoNl : ∀ l ∈ L1, '\n' ∉ l := by
        rw [hL1eq]
        exact mem_splitOnNl_no_nl (rem ++ rest.take cs)
      have hmemDL : ∀ l ∈ L1.dropLast, l ∈ splitOnNl (rem ++ rest) := by
        intro l hl
        rw [hsplit]
        exact List.mem_append_left _ hl
      have hmemR : ∀ l ∈ splitOnNl (L1.getLastD [] ++ rest.drop cs),
          l ∈ splitOnNl (rem ++ rest) := by
        intro l hl
        rw [hsplit]
        exact List.mem_append_right _ hl
      by_cases hR : (rest.take cs).getLastD ' ' = '\n'
      · -- the chunk ends in a newline: no remainder is held back
        have hlast0 : L1.getLastD [] = [] := by
          rw [hL1eq]
          apply splitOnNl_getLastD_of_last_nl
          · intro hnil
            exact hchunk (List.append_eq_nil.mp hnil).2
          · rw [getLastD_append_of_ne_nil ' ' rem (rest.take cs) hchunk]
            exact hR
        simp only [if_neg (not_not_intro hR)] at h
        split at h
        · injection h with h
          subst h
          intro r hr
          rcases processLines_sound parse ts tt L1 acc errs nls r hr with
            hin | ⟨hts, l, hl, hlne, hpl⟩
          · exact Or.inl hin
          · refine Or.inr ⟨hts, l, ?_, hlne, hpl⟩
            rcases mem_dropLast_or_getLastD [] L1 l hl with hm | hm
            · exact hmemDL l hm
            · rw [hlast0] at hm
              exact absurd hm hlne
        · intro r hr
          rcases ih (rest.drop cs) [] _ _ _ out (by simp) h r hr with
            hin | ⟨hts, l, hl, hlne, hpl⟩
          · rcases processLines_sound parse ts tt L1 acc errs nls r hin with
              hin2 | ⟨hts, l, hl, hlne, hpl⟩
            · exact Or.inl hin2
            · refine Or.inr ⟨hts, l, ?_, hlne, hpl⟩
              rcases mem_dropLast_or_getLastD [] L1 l hl with hm | hm
              · exact hmemDL l hm
              · rw [hlast0] at hm
                exact absurd hm hlne
          · refine Or.inr ⟨hts, l, ?_, hlne, hpl⟩
            apply hmemR
            rw [hlast0]
            simpa using hl
      · -- the chunk does not end in a newline: hold back the last line
        simp only [if_pos hR] at h
        split at h
        · injection h with h
          subst h
          intro r hr
          rcases processLines_sound parse ts tt L1.dropLast acc errs nls r hr with
            hin | ⟨hts, l, hl, hlne, hpl⟩
          · exact Or.inl hin
          · exact Or.inr ⟨hts, l, hmemDL l hl, hlne, hpl⟩
        · intro r hr
          have hrem1 : '\n' ∉ L1.getLastD [] :=
            hnoNl _ (getLastD_mem [] L1 hL1ne)
          rcases ih (rest.drop cs) (L1.getLastD []) _ _ _ out hrem1
              h r hr with hin | ⟨hts, l, hl, hlne, hpl⟩
          · rcases processLines_sound parse ts tt L1.dropLast acc errs nls r hin with
              hin2 | ⟨hts, l, hl, hlne, hpl⟩
            · exact Or.inl hin2
            · exact Or.inr ⟨hts, l, hmemDL l hl, hlne, hpl⟩
          · exact Or.inr ⟨hts, l, hmemR l hl, hlne, hpl⟩

/-- C5: for every file, start offset and upper bound, when the window
read returns a record sequence, every returned record has timestamp
strictly below `time_to`; every returned record is the parse of a
complete non-empty line of the file's suffix from the start offset (so no
record whose line begins before the start offset appears); and hence,
whenever every parseable line of that suffix has timestamp at least
`tf` -- as holds for a time-ordered file whose effective window start is
the line at the start offset -- no returned record has timestamp below
`tf`. -/
theorem C5_read_window_sound {α : Type} (file : List Char)
    (parse : List Char → Option α) (ts : α → ℤ) (startPos : ℕ) (tt : ℤ)
    (cs : ℕ) (th : ℚ) (es : List α)
    (h : read_window file parse ts startPos tt cs th = .ok es) :
    (∀ r ∈ es, ts r < tt) ∧
    (∀ r ∈ es, ∃ l ∈ splitOnNl (file.drop startPos), l ≠ [] ∧ parse l = some r) ∧
    (∀ tf : ℤ,
      (∀ l ∈ splitOnNl (file.drop startPos), ∀ r, parse l = some r → tf ≤ ts r) →
      ∀ r ∈ es, tf ≤ ts r) := by
  have hex : ∃ errs nls,
      readAux parse ts tt cs ((file.drop startPos).length + 1)
        (file.drop startPos) [] [] 0 0 = .ok (es, errs, nls) := by
    simp only [read_window] at h
    split at h
    · exact absurd h (by simp)
    · rename_i x es2 errs nls heq
      split at h
      · exact absurd h (by simp)
      · injection h with h
        subst h
        exact ⟨errs, nls, heq⟩
  obtain ⟨errs, nls, hra⟩ := hex
  have hsound := readAux_sound parse ts tt cs
    ((file.drop startPos).length + 1) (file.drop startPos) [] [] 0 0
    (es, errs, nls) (by simp) hra
  have hrec : ∀ r ∈ es,
      ts r < tt ∧ ∃ l ∈ splitOnNl (file.drop startPos), l ≠ [] ∧ parse l = some r := by
    intro r hr
    rcases hsound r hr with hin | ⟨hts, l, hl, hlne, hpl⟩
    · exact absurd hin (List.not_mem_nil r)
    · rw [List.nil_append] at hl
      exact ⟨hts, l, hl, hlne, hpl⟩
  refine ⟨fun r hr => (hrec r hr).1, fun r hr => (hrec r hr).2, ?_⟩
  intro tf hord r hr
  rcases (hrec r hr).2 with ⟨l, hl, _, hpl⟩
  exact hord l hl r hpl

/-- Witness for `C5_read_window_sound`: the window read of the file
consisting of lines `7` and `25` with upper bound 20 returns exactly the
record 7, which is below the bound, parses from a line of the suffix,
and respects any lower bound all suffix lines satisfy. -/
theorem C5_read_window_sound_w :
    (∀ r ∈ [(7:ℤ)], id r < 20) ∧
    (∀ r ∈ [(7:ℤ)], ∃ l ∈ splitOnNl ("7\n25\n".toList.drop 0), l ≠ [] ∧
      parseNum l = some r) ∧
    (∀ tf : ℤ,
      (∀ l ∈ splitOnNl ("7\n25\n".toList.drop 0), ∀ r, parseNum l = some r →
        tf ≤ id r) →
      ∀ r ∈ [(7:ℤ)], tf ≤ id r) :=
  C5_read_window_sound "7\n25\n".toList parseNum id 0 20 1024 (1/5) [7]
    (read_window_eval_ok "7\n25\n".toList parseNum id 0 20 1024 (1/5) [7] 0 2
      (by decide) (by norm_num))
